import Mathlib

/-
Verification of `src/pkg/build/sources/conveyorPacker_shub.go`.

Strings are modelled as `List Char`.  The anchored regular expression used by
`ShubParseReference` is modelled by a small regex language (`Regex`) together
with its standard language semantics (`RMatch`) and an executable
continuation-passing matcher (`nmatch`) proved equivalent to the semantics.
Filesystem and network effects are modelled by explicit state passing and
oracle inputs; Go panics (nil-pointer dereferences, out-of-range slicing)
are modelled as a distinct `panic` outcome.
-/

/-! ## Character classes of the source regex

The Go source builds the expression from five component patterns:
`([-a-zA-Z0-9/]{1,64}\/)?`, `([-a-zA-Z0-9]{1,39}\/)`, `([-_.a-zA-Z0-9]{1,64})`,
`(:[-_.a-zA-Z0-9]{1,64})?`, `(\@[a-f0-9]{32})?`. -/

/-- Character class `[-a-zA-Z0-9/]` of `registryRegexp`. -/
def isRegistryChar (c : Char) : Bool :=
  c == '-' || (decide ('a' ≤ c) && decide (c ≤ 'z')) ||
    (decide ('A' ≤ c) && decide (c ≤ 'Z')) ||
    (decide ('0' ≤ c) && decide (c ≤ '9')) || c == '/'

/-- Character class `[-a-zA-Z0-9]` of `nameRegexp`. -/
def isNameChar (c : Char) : Bool :=
  c == '-' || (decide ('a' ≤ c) && decide (c ≤ 'z')) ||
    (decide ('A' ≤ c) && decide (c ≤ 'Z')) ||
    (decide ('0' ≤ c) && decide (c ≤ '9'))

/-- Character class `[-_.a-zA-Z0-9]` of `containerRegexp`. -/
def isContainerChar (c : Char) : Bool :=
  c == '-' || c == '_' || c == '.' || (decide ('a' ≤ c) && decide (c ≤ 'z')) ||
    (decide ('A' ≤ c) && decide (c ≤ 'Z')) ||
    (decide ('0' ≤ c) && decide (c ≤ '9'))

/-- Character class `[-_.a-zA-Z0-9]` of `tagRegexp` (same set as the container
class; the source defines it by a separate pattern string). -/
def isTagChar (c : Char) : Bool :=
  c == '-' || c == '_' || c == '.' || (decide ('a' ≤ c) && decide (c ≤ 'z')) ||
    (decide ('A' ≤ c) && decide (c ≤ 'Z')) ||
    (decide ('0' ≤ c) && decide (c ≤ '9'))

/-- Character class `[a-f0-9]` of `digestRegexp`. -/
def isHexLower (c : Char) : Bool :=
  (decide ('a' ≤ c) && decide (c ≤ 'f')) || (decide ('0' ≤ c) && decide (c ≤ '9'))

/-! ## A small regex language

Only the constructors needed for the source expression: the empty word,
a literal character, concatenation, an optional group `(...)?`, and a bounded
repetition `cls{lo,hi}` of a character class. -/

inductive Regex : Type where
  | eps : Regex
  | lit : Char → Regex
  | seq : Regex → Regex → Regex
  | opt : Regex → Regex
  | rep : (Char → Bool) → Nat → Nat → Regex

/-- Standard language semantics of `Regex`. -/
def RMatch : Regex → List Char → Prop
  | .eps, s => s = []
  | .lit c, s => s = [c]
  | .seq r1 r2, s => ∃ s1 s2, s = s1 ++ s2 ∧ RMatch r1 s1 ∧ RMatch r2 s2
  | .opt r, s => s = [] ∨ RMatch r s
  | .rep p lo hi, s => lo ≤ s.length ∧ s.length ≤ hi ∧ ∀ c, c ∈ s → p c = true

/-- Executable matcher for the bounded repetition `p{lo,hi}`: consume between
`lo` and `hi` characters satisfying `p`, then run the continuation `k`. -/
def repMatch (p : Char → Bool) : Nat → Nat → List Char → (List Char → Bool) → Bool
  | 0, 0, s, k => k s
  | 0, hi + 1, s, k =>
      k s || (match s with
              | [] => false
              | a :: s' => p a && repMatch p 0 hi s' k)
  | _ + 1, 0, _, _ => false
  | _ + 1, _ + 1, [], _ => false
  | lo + 1, hi + 1, a :: s', k => p a && repMatch p lo hi s' k

/-- Executable continuation-passing backtracking matcher. -/
def nmatch : Regex → List Char → (List Char → Bool) → Bool
  | .eps, s, k => k s
  | .lit _, [], _ => false
  | .lit c, a :: s, k => a == c && k s
  | .seq r1 r2, s, k => nmatch r1 s (fun t => nmatch r2 t k)
  | .opt r, s, k => k s || nmatch r s k
  | .rep p lo hi, s, k => repMatch p lo hi s k

/-- Whole-string acceptance (the source expression is anchored with `^` and
`$`, so a match must consume the entire input). -/
def regexAccepts (r : Regex) (s : List Char) : Bool :=
  nmatch r s (fun t => t.isEmpty)

theorem repMatch_iff (p : Char → Bool) (k : List Char → Bool) :
    ∀ (hi lo : Nat) (s : List Char),
      repMatch p lo hi s k = true ↔
        ∃ s1 s2, s = s1 ++ s2 ∧ lo ≤ s1.length ∧ s1.length ≤ hi ∧
          (∀ c, c ∈ s1 → p c = true) ∧ k s2 = true := by
  intro hi
  induction hi with
  | zero =>
    intro lo s
    constructor
    · intro h
      cases lo with
      | zero =>
        simp only [repMatch] at h
        refine ⟨[], s, rfl, ?_, ?_, ?_, h⟩
        · exact Nat.le_refl 0
        · exact Nat.le_refl 0
        · intro c hc; exact absurd hc (List.not_mem_nil c)
      | succ lo =>
        simp only [repMatch] at h
        exact absurd h (by simp)
    · rintro ⟨s1, s2, hsp, hlo, hhi, hall, hk⟩
      have h1 : s1 = [] := List.eq_nil_of_length_eq_zero (Nat.le_zero.mp hhi)
      subst h1
      have hlo0 : lo = 0 := Nat.le_zero.mp hlo
      subst hlo0
      simp only [repMatch]
      simpa [hsp] using hk
  | succ hi ih =>
    intro lo s
    cases lo with
    | zero =>
      cases s with
      | nil =>
        constructor
        · intro h
          simp only [repMatch] at h
          rcases Bool.or_eq_true_iff.mp h with h | h
          · refine ⟨[], [], rfl, Nat.le_refl 0, ?_, ?_, h⟩
            · exact Nat.zero_le _
            · intro c hc; exact absurd hc (List.not_mem_nil c)
          · exact absurd h (by simp)
        · rintro ⟨s1, s2, hsp, _, _, _, hk⟩
          rcases List.append_eq_nil.mp hsp.symm with ⟨h1, h2⟩
          subst h1; subst h2
          simp only [repMatch]
          exact Bool.or_eq_true_iff.mpr (Or.inl hk)
      | cons a s' =>
        constructor
        · intro h
          simp only [repMatch] at h
          rcases Bool.or_eq_true_iff.mp h with h | h
          · refine ⟨[], a :: s', rfl, Nat.le_refl 0, ?_, ?_, h⟩
            · exact Nat.zero_le _
            · intro c hc; exact absurd hc (List.not_mem_nil c)
          · rcases Bool.and_eq_true_iff.mp h with ⟨hp, hr⟩
            rcases (ih 0 s').mp hr with ⟨s1, s2, hsp, _, hhi, hall, hk⟩
            refine ⟨a :: s1, s2, by rw [hsp]; rfl, Nat.zero_le _, ?_, ?_, hk⟩
            · simpa using Nat.succ_le_succ hhi
            · intro c hc
              rcases List.mem_cons.mp hc with h | h
              · subst h; exact hp
              · exact hall c h
        · rintro ⟨s1, s2, hsp, _, hhi, hall, hk⟩
          simp only [repMatch]
          cases s1 with
          | nil =>
            apply Bool.or_eq_true_iff.mpr
            left
            simp only [List.nil_append] at hsp
            rw [← hsp] at hk
            exact hk
          | cons b s1' =>
            apply Bool.or_eq_true_iff.mpr
            right
            simp only [List.cons_append, List.cons.injEq] at hsp
            rcases hsp with ⟨hb, hsp'⟩
            subst hb
            apply Bool.and_eq_true_iff.mpr
            refine ⟨hall a (List.mem_cons_self a s1'), ?_⟩
            apply (ih 0 s').mpr
            refine ⟨s1', s2, hsp', Nat.zero_le _, ?_, ?_, hk⟩
            · simp only [List.length_cons] at hhi; omega
            · intro c hc; exact hall c (List.mem_cons_of_mem a hc)
    | succ lo =>
      cases s with
      | nil =>
        constructor
        · intro h
          simp only [repMatch] at h
          exact absurd h (by simp)
        · rintro ⟨s1, s2, hsp, hlo, _, _, _⟩
          rcases List.append_eq_nil.mp hsp.symm with ⟨h1, _⟩
          subst h1
          exact absurd hlo (by simp)
      | cons a s' =>
        constructor
        · intro h
          simp only [repMatch] at h
          rcases Bool.and_eq_true_iff.mp h with ⟨hp, hr⟩
          rcases (ih lo s').mp hr with ⟨s1, s2, hsp, hlo, hhi, hall, hk⟩
          refine ⟨a :: s1, s2, by rw [hsp]; rfl, ?_, ?_, ?_, hk⟩
          · simpa using Nat.succ_le_succ hlo
          · simpa using Nat.succ_le_succ hhi
          · intro c hc
            rcases List.mem_cons.mp hc with h | h
            · subst h; exact hp
            · exact hall c h
        · rintro ⟨s1, s2, hsp, hlo, hhi, hall, hk⟩
          cases s1 with
          | nil => exact absurd hlo (by simp)
          | cons b s1' =>
            simp only [List.cons_append, List.cons.injEq] at hsp
            rcases hsp with ⟨hb, hsp'⟩
            subst hb
            simp only [repMatch]
            apply Bool.and_eq_true_iff.mpr
            refine ⟨hall a (List.mem_cons_self a s1'), ?_⟩
            apply (ih lo s').mpr
            refine ⟨s1', s2, hsp', ?_, ?_, ?_, hk⟩
            · simp only [List.length_cons] at hlo; omega
            · simp only [List.length_cons] at hhi; omega
            · intro c hc; exact hall c (List.mem_cons_of_mem a hc)

theorem nmatch_iff :
    ∀ (r : Regex) (s : List Char) (k : List Char → Bool),
      nmatch r s k = true ↔ ∃ s1 s2, s = s1 ++ s2 ∧ RMatch r s1 ∧ k s2 = true := by
  intro r
  induction r with
  | eps =>
    intro s k
    simp only [nmatch, RMatch]
    constructor
    · intro h; exact ⟨[], s, rfl, rfl, h⟩
    · rintro ⟨s1, s2, hsp, h1, hk⟩; subst h1; simpa [hsp] using hk
  | lit c =>
    intro s k
    cases s with
    | nil =>
      simp only [nmatch, RMatch]
      constructor
      · intro h; cases h
      · rintro ⟨s1, s2, hsp, h1, _⟩
        subst h1; cases hsp
    | cons a s' =>
      simp only [nmatch, RMatch]
      constructor
      · intro h
        rcases Bool.and_eq_true_iff.mp h with ⟨ha, hk⟩
        have : a = c := by simpa using ha
        subst this
        exact ⟨[a], s', rfl, rfl, hk⟩
      · rintro ⟨s1, s2, hsp, h1, hk⟩
        subst h1
        simp only [List.cons_append, List.nil_append, List.cons.injEq] at hsp
        apply Bool.and_eq_true_iff.mpr
        exact ⟨by simp [hsp.1], by rw [hsp.2]; exact hk⟩
  | seq r1 r2 ih1 ih2 =>
    intro s k
    simp only [nmatch]
    rw [ih1]
    constructor
    · rintro ⟨s1, t, hsp, h1, ht⟩
      rcases (ih2 t k).mp ht with ⟨s2, s3, htsp, h2, hk⟩
      refine ⟨s1 ++ s2, s3, ?_, ⟨s1, s2, rfl, h1, h2⟩, hk⟩
      rw [hsp, htsp, List.append_assoc]
    · rintro ⟨s12, s3, hsp, ⟨s1, s2, h12, h1, h2⟩, hk⟩
      refine ⟨s1, s2 ++ s3, ?_, h1, ?_⟩
      · rw [hsp, h12, List.append_assoc]
      · exact (ih2 (s2 ++ s3) k).mpr ⟨s2, s3, rfl, h2, hk⟩
  | opt r ih =>
    intro s k
    simp only [nmatch, RMatch]
    constructor
    · intro h
      rcases Bool.or_eq_true_iff.mp h with h | h
      · exact ⟨[], s, rfl, Or.inl rfl, h⟩
      · rcases (ih s k).mp h with ⟨s1, s2, hsp, h1, hk⟩
        exact ⟨s1, s2, hsp, Or.inr h1, hk⟩
    · rintro ⟨s1, s2, hsp, h1 | h1, hk⟩
      · subst h1
        exact Bool.or_eq_true_iff.mpr (Or.inl (by simpa [hsp] using hk))
      · exact Bool.or_eq_true_iff.mpr (Or.inr ((ih s k).mpr ⟨s1, s2, hsp, h1, hk⟩))
  | rep p lo hi =>
    intro s k
    simp only [nmatch, RMatch]
    rw [repMatch_iff]
    constructor
    · rintro ⟨s1, s2, hsp, hlo, hhi, hall, hk⟩
      exact ⟨s1, s2, hsp, ⟨hlo, hhi, hall⟩, hk⟩
    · rintro ⟨s1, s2, hsp, ⟨hlo, hhi, hall⟩, hk⟩
      exact ⟨s1, s2, hsp, hlo, hhi, hall, hk⟩

theorem regexAccepts_iff (r : Regex) (s : List Char) :
    regexAccepts r s = true ↔ RMatch r s := by
  unfold regexAccepts
  rw [nmatch_iff]
  constructor
  · rintro ⟨s1, s2, hsp, h1, hk⟩
    have : s2 = [] := by simpa using hk
    subst this
    simpa [hsp]
  · intro h
    exact ⟨s, [], by simp, h, by simp⟩

/-! ## The source expression

`^\/\/` + `([-a-zA-Z0-9/]{1,64}\/)?` + `([-a-zA-Z0-9]{1,39}\/)` +
`([-_.a-zA-Z0-9]{1,64})` + `(:[-_.a-zA-Z0-9]{1,64})?` + `(\@[a-f0-9]{32})?` + `$`. -/

def registryRe : Regex := .opt (.seq (.rep isRegistryChar 1 64) (.lit '/'))

def nameRe : Regex := .seq (.rep isNameChar 1 39) (.lit '/')

def containerRe : Regex := .rep isContainerChar 1 64

def tagRe : Regex := .opt (.seq (.lit ':') (.rep isTagChar 1 64))

def digestRe : Regex := .opt (.seq (.lit '@') (.rep isHexLower 32 32))

def shubRegex : Regex :=
  .seq (.lit '/') (.seq (.lit '/')
    (.seq registryRe (.seq nameRe (.seq containerRe (.seq tagRe digestRe)))))

/-- Whole-input acceptance by the anchored source expression. -/
def shubAccepts (s : List Char) : Bool := regexAccepts shubRegex s

/-! ## Split helpers

`splitAfterChar` models Go `strings.SplitAfterN(s, sep, -1)` for a
one-character separator (each piece keeps its trailing separator);
`splitChar` models Go `strings.Split(s, sep)`. -/

def splitAfterChar (c : Char) : List Char → List (List Char)
  | [] => [[]]
  | a :: s =>
    if a = c then [a] :: splitAfterChar c s
    else
      match splitAfterChar c s with
      | [] => [[a]]
      | p :: ps => (a :: p) :: ps

def splitChar (c : Char) : List Char → List (List Char)
  | [] => [[]]
  | a :: s =>
    if a = c then [] :: splitChar c s
    else
      match splitChar c s with
      | [] => [[a]]
      | p :: ps => (a :: p) :: ps

theorem splitAfterChar_ne_nil (c : Char) (s : List Char) : splitAfterChar c s ≠ [] := by
  cases s with
  | nil => simp [splitAfterChar]
  | cons a s =>
    simp only [splitAfterChar]
    by_cases h : a = c
    · simp [h]
    · simp only [h, if_false]
      cases splitAfterChar c s with
      | nil => simp
      | cons p ps => simp

theorem splitChar_ne_nil (c : Char) (s : List Char) : splitChar c s ≠ [] := by
  cases s with
  | nil => simp [splitChar]
  | cons a s =>
    simp only [splitChar]
    by_cases h : a = c
    · simp [h]
    · simp only [h, if_false]
      cases splitChar c s with
      | nil => simp
      | cons p ps => simp

theorem splitChar_of_not_mem (c : Char) (s : List Char) (h : c ∉ s) :
    splitChar c s = [s] := by
  induction s with
  | nil => rfl
  | cons a s ih =>
    have ha : ¬a = c := fun hac => h (by rw [hac]; exact List.mem_cons_self c s)
    have hs : c ∉ s := fun hc => h (List.mem_cons_of_mem a hc)
    simp only [splitChar, ha, if_false, ih hs]

theorem splitChar_first (c : Char) (xs ys : List Char) (h : c ∉ xs) :
    splitChar c (xs ++ c :: ys) = xs :: splitChar c ys := by
  induction xs with
  | nil => simp [splitChar]
  | cons a xs ih =>
    have ha : ¬a = c := fun hac => h (by rw [hac]; exact List.mem_cons_self c xs)
    have hxs : c ∉ xs := fun hc => h (List.mem_cons_of_mem a hc)
    show splitChar c (a :: (xs ++ c :: ys)) = (a :: xs) :: splitChar c ys
    simp only [splitChar, ha, if_false]
    rw [ih hxs]

theorem splitAfterChar_of_not_mem (c : Char) (s : List Char) (h : c ∉ s) :
    splitAfterChar c s = [s] := by
  induction s with
  | nil => rfl
  | cons a s ih =>
    have ha : ¬a = c := fun hac => h (by rw [hac]; exact List.mem_cons_self c s)
    have hs : c ∉ s := fun hc => h (List.mem_cons_of_mem a hc)
    simp only [splitAfterChar, ha, if_false, ih hs]

theorem splitAfterChar_first (c : Char) (xs ys : List Char) (h : c ∉ xs) :
    splitAfterChar c (xs ++ c :: ys) = (xs ++ [c]) :: splitAfterChar c ys := by
  induction xs with
  | nil => simp [splitAfterChar]
  | cons a xs ih =>
    have ha : ¬a = c := fun hac => h (by rw [hac]; exact List.mem_cons_self c xs)
    have hxs : c ∉ xs := fun hc => h (List.mem_cons_of_mem a hc)
    show splitAfterChar c (a :: (xs ++ c :: ys)) = (a :: (xs ++ [c])) :: splitAfterChar c ys
    simp only [splitAfterChar, ha, if_false]
    rw [ih hxs]

/-- Splitting `q ++ n ++ c :: tail` where `q` is empty or ends with the
separator, and neither `n` nor `tail` contains the separator: the pieces are
some prefix list `Q` joining to `q`, then `n ++ [c]`, then `tail`. -/
theorem splitAfterChar_decomp (c : Char) :
    ∀ (q n tail : List Char), (q = [] ∨ ∃ q0, q = q0 ++ [c]) → c ∉ n → c ∉ tail →
      ∃ Q, splitAfterChar c (q ++ (n ++ c :: tail)) = Q ++ [n ++ [c], tail] ∧
        Q.join = q ∧ (Q = [] ↔ q = []) := by
  intro q
  induction q with
  | nil =>
    intro n tail _ hn htail
    refine ⟨[], ?_, rfl, by simp⟩
    rw [List.nil_append, splitAfterChar_first c n tail hn,
      splitAfterChar_of_not_mem c tail htail]
    rfl
  | cons a q' ih =>
    intro n tail hq hn htail
    rcases hq with hq | ⟨q0, hq0⟩
    · cases hq
    · by_cases hac : a = c
      · subst hac
        have hq' : q' = [] ∨ ∃ q1, q' = q1 ++ [a] := by
          cases q0 with
          | nil =>
            left
            simpa using hq0
          | cons b q0' =>
            right
            simp only [List.cons_append, List.cons.injEq] at hq0
            exact ⟨q0', hq0.2⟩
        rcases ih n tail hq' hn htail with ⟨Q', hsp, hjoin, hiff⟩
        refine ⟨[a] :: Q', ?_, ?_, ?_⟩
        · have hstep : splitAfterChar a ((a :: q') ++ (n ++ a :: tail)) =
              [a] :: splitAfterChar a (q' ++ (n ++ a :: tail)) := by
            show splitAfterChar a (a :: (q' ++ (n ++ a :: tail))) = _
            simp [splitAfterChar]
          rw [hstep, hsp]
          rfl
        · simp [hjoin]
        · constructor
          · intro h; cases h
          · intro h; cases h
      · have hq'ne : q' ≠ [] := by
          intro h
          subst h
          cases q0 with
          | nil => simp at hq0; exact hac hq0
          | cons b q0' =>
            have := congrArg List.length hq0
            simp at this
        have hq' : q' = [] ∨ ∃ q1, q' = q1 ++ [c] := by
          cases q0 with
          | nil => simp at hq0; exact absurd hq0.1 hac
          | cons b q0' =>
            right
            simp only [List.cons_append, List.cons.injEq] at hq0
            exact ⟨q0', hq0.2⟩
        rcases ih n tail hq' hn htail with ⟨Q', hsp, hjoin, hiff⟩
        have hQ'ne : Q' ≠ [] := fun h => hq'ne (hiff.mp h)
        cases Q' with
        | nil => exact absurd rfl hQ'ne
        | cons P Q'' =>
          refine ⟨(a :: P) :: Q'', ?_, ?_, ?_⟩
          · have hstep : splitAfterChar c ((a :: q') ++ (n ++ c :: tail)) =
                (match splitAfterChar c (q' ++ (n ++ c :: tail)) with
                 | [] => [[a]]
                 | p :: ps => (a :: p) :: ps) := by
              show splitAfterChar c (a :: (q' ++ (n ++ c :: tail))) = _
              simp [splitAfterChar, hac]
            rw [hstep, hsp]
            rfl
          · simp only [List.join] at hjoin ⊢
            simp [hjoin.symm]
          · constructor
            · intro h; cases h
            · intro h; cases h

theorem contains_iff_mem (s : List Char) (c : Char) : s.contains c = true ↔ c ∈ s := by
  induction s with
  | nil =>
    constructor
    · intro h; cases h
    · intro h; cases h
  | cons a s ih =>
    constructor
    · intro h
      rcases Bool.or_eq_true_iff.mp h with h | h
      · have : c = a := by simpa using h
        rw [this]; exact List.mem_cons_self a s
      · exact List.mem_cons_of_mem a (ih.mp h)
    · intro h
      rcases List.mem_cons.mp h with h | h
      · subst h
        apply Bool.or_eq_true_iff.mpr
        left; simp
      · exact Bool.or_eq_true_iff.mpr (Or.inr (ih.mpr h))

/-! ## The `ShubURI` data model and `ShubParseReference`

Fields and layout follow the Go `ShubURI` struct.  The Go zero value has all
string fields empty and `defaultReg = false`. -/

/-- `const defaultRegistry string` of the source. -/
def defaultRegistry : List Char := ("singularity-hub.org/api/container/").toList

structure ShubURI where
  registry : List Char
  user : List Char
  container : List Char
  tag : List Char
  digest : List Char
  defaultReg : Bool
deriving DecidableEq

/-- Go zero value of `ShubURI`. -/
def uriZero : ShubURI := ⟨[], [], [], [], [], false⟩

/-- `func (s *ShubURI) String() string`. -/
def ShubURI.String (s : ShubURI) : List Char :=
  s.registry ++ s.user ++ s.container ++ s.tag ++ s.digest

/-- Outcome of a fallible Go call: normal value, returned error (message), or
a runtime panic. -/
inductive StageResult (α : Type) : Type where
  | ok : α → StageResult α
  | err : List Char → StageResult α
  | panic : StageResult α
deriving DecidableEq

/-- The `strings.SplitAfterN(src, "/", -1)` block of `ShubParseReference`
(lines 213-226): more than two pieces means a custom registry, exactly two
means the default registry, otherwise the URI is left at its zero value and
`src` is left unchanged. -/
def splitPhase (src : List Char) : ShubURI × List Char :=
  let pieces := splitAfterChar '/' src
  let l := pieces.length
  if l > 2 then
    ({ uriZero with defaultReg := false,
                    registry := (pieces.take (l - 2)).join,
                    user := pieces.getD (l - 2) [] },
      pieces.getD (l - 1) [])
  else if l = 2 then
    ({ uriZero with defaultReg := true,
                    registry := defaultRegistry,
                    user := pieces.getD 0 [] },
      pieces.getD 1 [])
  else (uriZero, src)

/-- The `strings.Contains(src, "@")` block (lines 228-233): split on `@`,
keep `pieces[1]` with a leading `@` as the digest, continue with `pieces[0]`. -/
def digestPhase (u : ShubURI) (src : List Char) : ShubURI × List Char :=
  if src.contains '@' then
    ({ u with digest := '@' :: (splitChar '@' src).getD 1 [] },
      (splitChar '@' src).getD 0 [])
  else (u, src)

/-- The `strings.Contains(src, ":")` block (lines 235-240). -/
def tagPhase (u : ShubURI) (src : List Char) : ShubURI × List Char :=
  if src.contains ':' then
    ({ u with tag := ':' :: (splitChar ':' src).getD 1 [] },
      (splitChar ':' src).getD 0 [])
  else (u, src)

/-- `func ShubParseReference(src string) (uri ShubURI, err error)`.

The compiled expression is anchored, so `FindString` returns the whole input
on a match and the empty string otherwise; `strings.Compare(src, found) != 0`
is the rejection test.  `src[2:]` panics when the input is shorter than two
bytes (reachable exactly for the empty input, which equals the empty
`found`). -/
def ShubParseReference (src : List Char) : StageResult ShubURI :=
  let found := if shubAccepts src then src else []
  if src ≠ found then
    .err (("Source string is not a valid URI: ").toList ++ src)
  else if src.length < 2 then .panic
  else
    let p1 := splitPhase (src.drop 2)
    let p2 := digestPhase p1.1 p1.2
    let p3 := tagPhase p2.1 p2.2
    .ok { p3.1 with container := p3.2 }

theorem take_len_append (Q R : List (List Char)) : (Q ++ R).take Q.length = Q := by
  induction Q with
  | nil => rfl
  | cons a Q ih => simp [ih]

theorem getD_len_append (Q : List (List Char)) (x : List Char) (R : List (List Char)) :
    (Q ++ x :: R).getD Q.length [] = x := by
  induction Q with
  | nil => rfl
  | cons a Q ih => simpa using ih

theorem getD_len_succ_append (Q : List (List Char)) (x y : List Char) (R : List (List Char)) :
    (Q ++ x :: y :: R).getD (Q.length + 1) [] = y := by
  induction Q with
  | nil => rfl
  | cons a Q ih => simpa using ih

/-- `splitPhase` on an input whose pieces are a non-empty prefix `Q` followed
by exactly two further pieces: the custom-registry branch is taken. -/
theorem splitPhase_of_pieces (src : List Char) (Q : List (List Char)) (x y : List Char)
    (hsp : splitAfterChar '/' src = Q ++ [x, y]) (hQ : Q ≠ []) :
    splitPhase src =
      ({ uriZero with defaultReg := false, registry := Q.join, user := x }, y) := by
  cases Q with
  | nil => exact absurd rfl hQ
  | cons P Q' =>
    simp only [splitPhase, hsp]
    have hlen : ((P :: Q') ++ [x, y]).length = Q'.length + 3 := by simp
    rw [hlen]
    have hgt : Q'.length + 3 > 2 := by omega
    rw [if_pos hgt]
    have e1 : Q'.length + 3 - 2 = (P :: Q').length := by simp
    have e2 : Q'.length + 3 - 1 = (P :: Q').length + 1 := by simp
    rw [e1, e2]
    rw [show ((P :: Q') ++ [x, y]) = ((P :: Q') ++ x :: y :: []) from rfl]
    rw [take_len_append (P :: Q') (x :: y :: []), getD_len_append, getD_len_succ_append]

/-- `splitPhase` on an input with exactly two pieces: the default-registry
branch is taken. -/
theorem splitPhase_of_two (src : List Char) (x y : List Char)
    (hsp : splitAfterChar '/' src = [x, y]) :
    splitPhase src =
      ({ uriZero with defaultReg := true, registry := defaultRegistry, user := x }, y) := by
  simp only [splitPhase, hsp]
  rfl

theorem digestPhase_present (u : ShubURI) (x d : List Char)
    (hx : '@' ∉ x) (hd : '@' ∉ d) :
    digestPhase u (x ++ '@' :: d) = ({ u with digest := '@' :: d }, x) := by
  have hc : (x ++ '@' :: d).contains '@' = true :=
    (contains_iff_mem _ _).mpr (List.mem_append_right x (List.mem_cons_self '@' d))
  have hsc : splitChar '@' (x ++ '@' :: d) = x :: [d] := by
    rw [splitChar_first '@' x d hx, splitChar_of_not_mem '@' d hd]
  simp only [digestPhase, hc, if_true, hsc]
  rfl

theorem digestPhase_absent (u : ShubURI) (x : List Char) (hx : '@' ∉ x) :
    digestPhase u x = (u, x) := by
  have hc : x.contains '@' = false := by
    cases h : x.contains '@'
    · rfl
    · exact absurd ((contains_iff_mem _ _).mp h) hx
  simp [digestPhase, hc]
  intro h
  exact absurd h hx

theorem tagPhase_present (u : ShubURI) (x t : List Char)
    (hx : ':' ∉ x) (ht : ':' ∉ t) :
    tagPhase u (x ++ ':' :: t) = ({ u with tag := ':' :: t }, x) := by
  have hc : (x ++ ':' :: t).contains ':' = true :=
    (contains_iff_mem _ _).mpr (List.mem_append_right x (List.mem_cons_self ':' t))
  have hsc : splitChar ':' (x ++ ':' :: t) = x :: [t] := by
    rw [splitChar_first ':' x t hx, splitChar_of_not_mem ':' t ht]
  simp only [tagPhase, hc, if_true, hsc]
  rfl

theorem tagPhase_absent (u : ShubURI) (x : List Char) (hx : ':' ∉ x) :
    tagPhase u x = (u, x) := by
  have hc : x.contains ':' = false := by
    cases h : x.contains ':'
    · rfl
    · exact absurd ((contains_iff_mem _ _).mp h) hx
  simp [tagPhase, hc]
  intro h
  exact absurd h hx

theorem notMemAppend {c : Char} {a b : List Char} (ha : c ∉ a) (hb : c ∉ b) :
    c ∉ a ++ b := by
  intro h
  rcases List.mem_append.mp h with h | h
  · exact ha h
  · exact hb h

/-- Computation of `ShubParseReference` on an input presented in grammar
shape: `//` + optional registry prefix `q` (empty or ending in `/`) + owner
segment `n/` + container `cont` + optional tag `topt` + optional digest
`dopt`. -/
theorem ShubParseReference_decomp
    (q n cont topt dopt : List Char)
    (hq : q = [] ∨ ∃ q0, q = q0 ++ ['/'])
    (hn : '/' ∉ n)
    (hcont1 : '/' ∉ cont) (hcont2 : '@' ∉ cont) (hcont3 : ':' ∉ cont)
    (ht : topt = [] ∨ ∃ t, topt = ':' :: t ∧ '/' ∉ t ∧ '@' ∉ t ∧ ':' ∉ t)
    (hd : dopt = [] ∨ ∃ d, dopt = '@' :: d ∧ '/' ∉ d ∧ '@' ∉ d)
    (hacc : shubAccepts ('/' :: '/' :: (q ++ (n ++ '/' :: (cont ++ topt ++ dopt)))) = true) :
    ShubParseReference ('/' :: '/' :: (q ++ (n ++ '/' :: (cont ++ topt ++ dopt)))) =
      .ok { registry := if q = [] then defaultRegistry else q,
            user := n ++ ['/'],
            container := cont,
            tag := topt,
            digest := dopt,
            defaultReg := decide (q = []) } := by
  have hts : '/' ∉ topt := by
    rcases ht with h | ⟨t, h, h1, _, _⟩
    · rw [h]; exact List.not_mem_nil '/'
    · rw [h]; intro hm
      rcases List.mem_cons.mp hm with hm | hm
      · cases hm
      · exact h1 hm
  have hta : '@' ∉ topt := by
    rcases ht with h | ⟨t, h, _, h2, _⟩
    · rw [h]; exact List.not_mem_nil '@'
    · rw [h]; intro hm
      rcases List.mem_cons.mp hm with hm | hm
      · cases hm
      · exact h2 hm
  have hds : '/' ∉ dopt := by
    rcases hd with h | ⟨d, h, h1, _⟩
    · rw [h]; exact List.not_mem_nil '/'
    · rw [h]; intro hm
      rcases List.mem_cons.mp hm with hm | hm
      · cases hm
      · exact h1 hm
  have htail : '/' ∉ cont ++ topt ++ dopt :=
    notMemAppend (notMemAppend hcont1 hts) hds
  rcases splitAfterChar_decomp '/' q n (cont ++ topt ++ dopt) hq hn htail with
    ⟨Q, hsp, hjoin, hiff⟩
  have hsplit : splitPhase (q ++ (n ++ '/' :: (cont ++ topt ++ dopt))) =
      ({ uriZero with defaultReg := decide (q = []),
                      registry := if q = [] then defaultRegistry else q,
                      user := n ++ ['/'] }, cont ++ topt ++ dopt) := by
    by_cases hqe : q = []
    · have hQ : Q = [] := hiff.mpr hqe
      subst hqe
      rw [hQ] at hsp
      simp only [List.nil_append] at hsp
      simp only [List.nil_append]
      rw [splitPhase_of_two _ _ _ hsp]
      simp
    · have hQ : Q ≠ [] := fun h => hqe (hiff.mp h)
      rw [splitPhase_of_pieces _ Q _ _ hsp hQ]
      simp [hqe, hjoin]
  simp only [ShubParseReference, hacc, if_true]
  rw [if_neg (fun h => h rfl)]
  rw [if_neg (by simp)]
  simp only [List.drop_succ_cons, List.drop_zero]
  rw [hsplit]
  rcases hd with hde | ⟨d, hdd, _, hda2⟩
  · rw [hde]
    rw [List.append_nil]
    rw [digestPhase_absent _ _ (notMemAppend hcont2 hta)]
    rcases ht with hte | ⟨t, htt, _, _, ht3⟩
    · rw [hte, List.append_nil]
      rw [tagPhase_absent _ _ hcont3]
      rfl
    · rw [htt]
      rw [tagPhase_present _ _ _ hcont3 ht3]
      rfl
  · rw [hdd]
    rw [digestPhase_present _ _ _ (notMemAppend hcont2 hta) hda2]
    rcases ht with hte | ⟨t, htt, _, _, ht3⟩
    · rw [hte, List.append_nil]
      rw [tagPhase_absent _ _ hcont3]
      rfl
    · rw [htt]
      rw [tagPhase_present _ _ _ hcont3 ht3]

theorem not_mem_of_class {P : Char → Bool} {l : List Char} {c : Char}
    (hall : ∀ x, x ∈ l → P x = true) (hc : P c = false) : c ∉ l := by
  intro hm
  rw [hall c hm] at hc
  cases hc

/-- Any input accepted by the anchored expression decomposes into its grammar
components with their character classes and length bounds. -/
theorem shubAccepts_decomp (s : List Char) (h : shubAccepts s = true) :
    ∃ q n cont topt dopt,
      s = '/' :: '/' :: (q ++ (n ++ '/' :: (cont ++ topt ++ dopt))) ∧
      (q = [] ∨ ∃ q0, q = q0 ++ ['/'] ∧ (∀ c, c ∈ q0 → isRegistryChar c = true) ∧
        1 ≤ q0.length ∧ q0.length ≤ 64) ∧
      (∀ c, c ∈ n → isNameChar c = true) ∧ 1 ≤ n.length ∧ n.length ≤ 39 ∧
      (∀ c, c ∈ cont → isContainerChar c = true) ∧ 1 ≤ cont.length ∧ cont.length ≤ 64 ∧
      (topt = [] ∨ ∃ t, topt = ':' :: t ∧ (∀ c, c ∈ t → isTagChar c = true) ∧
        1 ≤ t.length ∧ t.length ≤ 64) ∧
      (dopt = [] ∨ ∃ d, dopt = '@' :: d ∧ (∀ c, c ∈ d → isHexLower c = true) ∧
        d.length = 32) := by
  have hm := (regexAccepts_iff shubRegex s).mp h
  simp only [shubRegex, registryRe, nameRe, containerRe, tagRe, digestRe, RMatch] at hm
  obtain ⟨a1, r1, hs1, rfl, a2, r2, hs2, rfl, sR, r3, hs3, hR,
    sN, r4, hs4, hN, sC, r5, hs5, hC, sT, sD, hs6, hT, hD⟩ := hm
  obtain ⟨nu, nv, hnsp, ⟨hn1, hn2, hnall⟩, rfl⟩ := hN
  refine ⟨sR, nu, sC, sT, sD, ?_, ?_, hnall, hn1, hn2, hC.2.2, hC.1, hC.2.1, ?_, ?_⟩
  · rw [hs1, hs2, hs3, hs4, hs5, hs6, hnsp]
    simp [List.append_assoc]
  · rcases hR with hR | ⟨ru, rv, hrsp, ⟨hr1, hr2, hrall⟩, rfl⟩
    · exact Or.inl hR
    · exact Or.inr ⟨ru, hrsp, hrall, hr1, hr2⟩
  · rcases hT with hT | ⟨tu, tv, htsp, rfl, ht1, ht2, htall⟩
    · exact Or.inl hT
    · exact Or.inr ⟨tv, htsp, htall, ht1, ht2⟩
  · rcases hD with hD | ⟨du, dv, hdsp, rfl, hd1, hd2, hdall⟩
    · exact Or.inl hD
    · exact Or.inr ⟨dv, hdsp, hdall, Nat.le_antisymm hd2 hd1⟩

/-- Conversely, every well-formed decomposition is accepted. -/
theorem shubAccepts_of_decomp (q n cont topt dopt : List Char)
    (hq : q = [] ∨ ∃ q0, q = q0 ++ ['/'] ∧ (∀ c, c ∈ q0 → isRegistryChar c = true) ∧
      1 ≤ q0.length ∧ q0.length ≤ 64)
    (hn : ∀ c, c ∈ n → isNameChar c = true) (hn1 : 1 ≤ n.length) (hn2 : n.length ≤ 39)
    (hc : ∀ c, c ∈ cont → isContainerChar c = true) (hc1 : 1 ≤ cont.length)
    (hc2 : cont.length ≤ 64)
    (ht : topt = [] ∨ ∃ t, topt = ':' :: t ∧ (∀ c, c ∈ t → isTagChar c = true) ∧
      1 ≤ t.length ∧ t.length ≤ 64)
    (hd : dopt = [] ∨ ∃ d, dopt = '@' :: d ∧ (∀ c, c ∈ d → isHexLower c = true) ∧
      d.length = 32) :
    shubAccepts ('/' :: '/' :: (q ++ (n ++ '/' :: (cont ++ topt ++ dopt)))) = true := by
  apply (regexAccepts_iff _ _).mpr
  simp only [shubRegex, registryRe, nameRe, containerRe, tagRe, digestRe, RMatch]
  refine ⟨['/'], '/' :: (q ++ (n ++ '/' :: (cont ++ topt ++ dopt))), rfl, rfl,
          ['/'], q ++ (n ++ '/' :: (cont ++ topt ++ dopt)), rfl, rfl,
          q, n ++ '/' :: (cont ++ topt ++ dopt), rfl, ?_,
          n ++ ['/'], cont ++ topt ++ dopt, by simp, ?_,
          cont, topt ++ dopt, by simp [List.append_assoc], ?_,
          topt, dopt, rfl, ?_, ?_⟩
  · rcases hq with hq | ⟨q0, hq0, hall, h1, h2⟩
    · exact Or.inl hq
    · exact Or.inr ⟨q0, ['/'], hq0, ⟨h1, h2, hall⟩, rfl⟩
  · exact ⟨n, ['/'], rfl, ⟨hn1, hn2, hn⟩, rfl⟩
  · exact ⟨hc1, hc2, hc⟩
  · rcases ht with ht | ⟨t, htt, hall, h1, h2⟩
    · exact Or.inl ht
    · exact Or.inr ⟨[':'], t, htt, rfl, h1, h2, hall⟩
  · rcases hd with hd | ⟨d, hdd, hall, h1⟩
    · exact Or.inl hd
    · exact Or.inr ⟨['@'], d, hdd, rfl, by omega, by omega, hall⟩

theorem ShubParseReference_ok_accepts (s : List Char) (u : ShubURI)
    (h : ShubParseReference s = .ok u) : shubAccepts s = true := by
  cases hb : shubAccepts s with
  | true => rfl
  | false =>
    exfalso
    simp only [ShubParseReference, hb, Bool.false_eq_true, if_false] at h
    by_cases hs : s = []
    · subst hs
      simp only [ne_eq, not_true_eq_false, if_false, List.length_nil] at h
      rw [if_pos (by omega : (0 : Nat) < 2)] at h
      exact StageResult.noConfusion h
    · rw [if_pos hs] at h
      exact StageResult.noConfusion h

/-- C1: parsing an accepted reference and reassembling the locator fields
reproduces the input after the `//` prefix, with the default registry
constant substituted when no custom registry was given. -/
theorem shub_parse_roundtrip (s : List Char) (h : shubAccepts s = true) :
    ∃ u, ShubParseReference s = .ok u ∧
      u.String = (if u.defaultReg then defaultRegistry ++ s.drop 2 else s.drop 2) := by
  obtain ⟨q, n, cont, topt, dopt, rfl, hq, hnall, hn1, hn2, hcall, hc1, hc2, ht, hd⟩ :=
    shubAccepts_decomp s h
  have hqs : q = [] ∨ ∃ q0, q = q0 ++ ['/'] := by
    rcases hq with h' | ⟨q0, hq0, _, _, _⟩
    · exact Or.inl h'
    · exact Or.inr ⟨q0, hq0⟩
  have hn : '/' ∉ n := not_mem_of_class hnall (by decide)
  have hcont1 : '/' ∉ cont := not_mem_of_class hcall (by decide)
  have hcont2 : '@' ∉ cont := not_mem_of_class hcall (by decide)
  have hcont3 : ':' ∉ cont := not_mem_of_class hcall (by decide)
  have ht' : topt = [] ∨ ∃ t, topt = ':' :: t ∧ '/' ∉ t ∧ '@' ∉ t ∧ ':' ∉ t := by
    rcases ht with h' | ⟨t, htt, hall, _, _⟩
    · exact Or.inl h'
    · exact Or.inr ⟨t, htt, not_mem_of_class hall (by decide),
        not_mem_of_class hall (by decide), not_mem_of_class hall (by decide)⟩
  have hd' : dopt = [] ∨ ∃ d, dopt = '@' :: d ∧ '/' ∉ d ∧ '@' ∉ d := by
    rcases hd with h' | ⟨d, hdd, hall, _⟩
    · exact Or.inl h'
    · exact Or.inr ⟨d, hdd, not_mem_of_class hall (by decide),
        not_mem_of_class hall (by decide)⟩
  rw [ShubParseReference_decomp q n cont topt dopt hqs hn hcont1 hcont2 hcont3 ht' hd' h]
  refine ⟨_, rfl, ?_⟩
  simp only [ShubURI.String, List.drop_succ_cons, List.drop_zero]
  by_cases hqe : q = []
  · subst hqe
    simp [List.append_assoc]
  · simp [hqe, List.append_assoc]

/-- C2: the empty input does not match the grammar, yet `ShubParseReference`
does not return an error on it: `FindString` yields the empty string, the
sanity check passes, and the `src[2:]` slice panics. -/
theorem shubParse_empty_input_panic :
    ShubParseReference [] = StageResult.panic ∧ shubAccepts [] = false := by
  exact ⟨rfl, rfl⟩

/-- C8: every successfully parsed locator has a non-empty container, and tag
and digest are empty or retain their leading delimiter. -/
theorem shub_parse_invariant (s : List Char) (u : ShubURI)
    (h : ShubParseReference s = .ok u) :
    u.container ≠ [] ∧ (u.tag = [] ∨ ∃ t, u.tag = ':' :: t) ∧
      (u.digest = [] ∨ ∃ d, u.digest = '@' :: d) := by
  have hacc := ShubParseReference_ok_accepts s u h
  obtain ⟨q, n, cont, topt, dopt, rfl, hq, hnall, hn1, hn2, hcall, hc1, hc2, ht, hd⟩ :=
    shubAccepts_decomp s hacc
  have hqs : q = [] ∨ ∃ q0, q = q0 ++ ['/'] := by
    rcases hq with h' | ⟨q0, hq0, _, _, _⟩
    · exact Or.inl h'
    · exact Or.inr ⟨q0, hq0⟩
  have hn : '/' ∉ n := not_mem_of_class hnall (by decide)
  have hcont1 : '/' ∉ cont := not_mem_of_class hcall (by decide)
  have hcont2 : '@' ∉ cont := not_mem_of_class hcall (by decide)
  have hcont3 : ':' ∉ cont := not_mem_of_class hcall (by decide)
  have ht' : topt = [] ∨ ∃ t, topt = ':' :: t ∧ '/' ∉ t ∧ '@' ∉ t ∧ ':' ∉ t := by
    rcases ht with h' | ⟨t, htt, hall, _, _⟩
    · exact Or.inl h'
    · exact Or.inr ⟨t, htt, not_mem_of_class hall (by decide),
        not_mem_of_class hall (by decide), not_mem_of_class hall (by decide)⟩
  have hd' : dopt = [] ∨ ∃ d, dopt = '@' :: d ∧ '/' ∉ d ∧ '@' ∉ d := by
    rcases hd with h' | ⟨d, hdd, hall, _⟩
    · exact Or.inl h'
    · exact Or.inr ⟨d, hdd, not_mem_of_class hall (by decide),
        not_mem_of_class hall (by decide)⟩
  rw [ShubParseReference_decomp q n cont topt dopt hqs hn hcont1 hcont2 hcont3 ht' hd' hacc]
    at h
  injection h with h'
  subst h'
  refine ⟨?_, ?_, ?_⟩
  · show cont ≠ []
    exact List.ne_nil_of_length_pos (by omega)
  · show topt = [] ∨ ∃ t, topt = ':' :: t
    rcases ht with hte | ⟨t, htt, _, _, _⟩
    · exact Or.inl hte
    · exact Or.inr ⟨t, htt⟩
  · show dopt = [] ∨ ∃ d, dopt = '@' :: d
    rcases hd with hde | ⟨d, hdd, _, _⟩
    · exact Or.inl hde
    · exact Or.inr ⟨d, hdd⟩

/-- C9: an accepted reference contains at most one `@` and at most one `:`
after the two-character prefix, so the first-occurrence splits of
`ShubParseReference` never discard text. -/
theorem shub_accepted_single_delims (s : List Char) (h : shubAccepts s = true) :
    (s.drop 2).count '@' ≤ 1 ∧ (s.drop 2).count ':' ≤ 1 := by
  obtain ⟨q, n, cont, topt, dopt, rfl, hq, hnall, _, _, hcall, _, _, ht, hd⟩ :=
    shubAccepts_decomp s h
  have hqa : '@' ∉ q := by
    rcases hq with h' | ⟨q0, hq0, hall, _, _⟩
    · rw [h']; exact List.not_mem_nil _
    · rw [hq0]; exact notMemAppend (not_mem_of_class hall (by decide)) (by decide)
  have hqc : ':' ∉ q := by
    rcases hq with h' | ⟨q0, hq0, hall, _, _⟩
    · rw [h']; exact List.not_mem_nil _
    · rw [hq0]; exact notMemAppend (not_mem_of_class hall (by decide)) (by decide)
  have hna : '@' ∉ n := not_mem_of_class hnall (by decide)
  have hnc : ':' ∉ n := not_mem_of_class hnall (by decide)
  have hca : '@' ∉ cont := not_mem_of_class hcall (by decide)
  have hcc : ':' ∉ cont := not_mem_of_class hcall (by decide)
  have hta : '@' ∉ topt := by
    rcases ht with h' | ⟨t, htt, hall, _, _⟩
    · rw [h']; exact List.not_mem_nil _
    · rw [htt]
      intro hm
      rcases List.mem_cons.mp hm with hm | hm
      · cases hm
      · exact not_mem_of_class hall (by decide) hm
  have htc : topt.count ':' ≤ 1 := by
    rcases ht with h' | ⟨t, htt, hall, _, _⟩
    · rw [h']; simp
    · rw [htt]
      rw [show (':' :: t : List Char) = [':'] ++ t from rfl, List.count_append]
      rw [List.count_eq_zero_of_not_mem (not_mem_of_class hall (by decide))]
      simp
  have hdc : ':' ∉ dopt := by
    rcases hd with h' | ⟨d, hdd, hall, _⟩
    · rw [h']; exact List.not_mem_nil _
    · rw [hdd]
      intro hm
      rcases List.mem_cons.mp hm with hm | hm
      · cases hm
      · exact not_mem_of_class hall (by decide) hm
  have hda : dopt.count '@' ≤ 1 := by
    rcases hd with h' | ⟨d, hdd, hall, _⟩
    · rw [h']; simp
    · rw [hdd]
      rw [show ('@' :: d : List Char) = ['@'] ++ d from rfl, List.count_append]
      rw [List.count_eq_zero_of_not_mem (not_mem_of_class hall (by decide))]
      simp
  simp only [List.drop_succ_cons, List.drop_zero]
  rw [show (n ++ '/' :: (cont ++ topt ++ dopt) : List Char) =
      n ++ ['/'] ++ (cont ++ topt ++ dopt) by simp]
  constructor
  · simp only [List.count_append]
    rw [List.count_eq_zero_of_not_mem hqa, List.count_eq_zero_of_not_mem hna,
      List.count_eq_zero_of_not_mem hca, List.count_eq_zero_of_not_mem hta,
      List.count_eq_zero_of_not_mem (show '@' ∉ (['/'] : List Char) by decide)]
    omega
  · simp only [List.count_append]
    rw [List.count_eq_zero_of_not_mem hqc, List.count_eq_zero_of_not_mem hnc,
      List.count_eq_zero_of_not_mem hcc, List.count_eq_zero_of_not_mem hdc,
      List.count_eq_zero_of_not_mem (show ':' ∉ (['/'] : List Char) by decide)]
    omega

/-- C7: the custom-registry reference `//host/path/owner/container:mytag@` +
32 lowercase-hex characters parses into the expected locator. -/
theorem shub_parse_custom_example (d : List Char) (hlen : d.length = 32)
    (hhex : ∀ c, c ∈ d → isHexLower c = true) :
    ShubParseReference (("//host/path/owner/container:mytag@").toList ++ d) =
      .ok { registry := ("host/path/").toList, user := ("owner/").toList,
            container := ("container").toList, tag := (":mytag").toList,
            digest := '@' :: d, defaultReg := false } := by
  have hshape : ("//host/path/owner/container:mytag@").toList ++ d =
      '/' :: '/' :: (("host/path/").toList ++ (("owner").toList ++ '/' ::
        (("container").toList ++ (":mytag").toList ++ ('@' :: d)))) := rfl
  have hacc : shubAccepts ('/' :: '/' :: (("host/path/").toList ++ (("owner").toList ++ '/' ::
      (("container").toList ++ (":mytag").toList ++ ('@' :: d))))) = true := by
    apply shubAccepts_of_decomp
    · exact Or.inr ⟨("host/path").toList, rfl, by decide, by decide, by decide⟩
    · decide
    · decide
    · decide
    · decide
    · decide
    · decide
    · exact Or.inr ⟨("mytag").toList, rfl, by decide, by decide, by decide⟩
    · exact Or.inr ⟨d, rfl, hhex, by omega⟩
  rw [hshape]
  rw [ShubParseReference_decomp _ _ _ _ _
    (Or.inr ⟨("host/path").toList, by decide⟩)
    (by decide)
    (by decide) (by decide) (by decide)
    (Or.inr ⟨("mytag").toList, by decide, by decide, by decide, by decide⟩)
    (Or.inr ⟨d, rfl, not_mem_of_class hhex (by decide), not_mem_of_class hhex (by decide)⟩)
    hacc]
  have hne : (("host/path/").toList : List Char) ≠ [] := by decide
  rw [if_neg hne, decide_eq_false hne]
  rfl

/-! ## Filesystem, registry and fetch model

A filesystem is a list of files, each a path (list of components) with its
byte content.  `os.RemoveAll` removes the path and everything below it and,
per the Go standard library contract, returns no error when the path does not
exist.  Network calls and JSON decoding are oracle inputs supplied to each
function; nil-pointer dereferences are the `panic` outcome. -/

abbrev FsPath : Type := List (List Char)

abbrev Fs : Type := List (FsPath × List Nat)

def lookupFile : Fs → FsPath → Option (List Nat)
  | [], _ => none
  | (q, bs) :: fs, p => if p = q then some bs else lookupFile fs p

/-- `os.RemoveAll(path)`: drop every file at or below `path`. -/
def osRemoveAll (p : FsPath) (fs : Fs) : Fs :=
  fs.filter (fun e => !(List.isPrefixOf p e.1))

/-- `sytypes.Bundle` as used here: only its `Path` field matters.
Modelled from the spec: the bundle type lives outside this file
(`src/pkg/build/types`); §6 describes it as `Workspace{Path}`, a fresh
writable directory owned by one acquisition. -/
structure Bundle where
  Path : FsPath
deriving DecidableEq

/-- `type shubAPIResponse struct` (fields `image`, `name`, `tag`, `version`). -/
structure ShubAPIResponse where
  Image : List Char
  Name : List Char
  Tag : List Char
  Version : List Char
deriving DecidableEq

/-- `type ShubConveyorPacker struct`: `recipe` is reduced to the `from`
header it reads, `b` is a possibly-nil bundle pointer, `manifest` a
possibly-nil response pointer, and `localPacker` records whether the packer
capability was installed. -/
structure ShubConveyorPacker where
  srcURI : ShubURI
  tmpfile : FsPath
  manifest : Option ShubAPIResponse
  b : Option Bundle
  localPacker : Bool
deriving DecidableEq

/-- Go zero value of `ShubConveyorPacker` (`b` and `manifest` are nil). -/
def cpZero : ShubConveyorPacker :=
  { srcURI := uriZero, tmpfile := [], manifest := none, b := none, localPacker := false }

/-- Result of `sc.Do(req)`: transport error, or a response with status code,
reason phrase and body. -/
inductive HttpResult : Type where
  | netErr : List Char → HttpResult
  | resp : Nat → List Char → List Nat → HttpResult
deriving DecidableEq

/-- `res.Status` as `net/http` builds it: the numeric code followed by the
reason phrase (e.g. `404 Not Found`). -/
def statusText (code : Nat) (reason : List Char) : List Char :=
  Nat.toDigits 10 code ++ ' ' :: reason

/-- Oracle inputs of `getManifest`: the HTTP exchange, the
`ioutil.ReadAll` outcome, and the `json.Unmarshal` outcome (which may set
the manifest pointer to nil when the body decodes to JSON null). -/
structure ManifestEnv where
  http : HttpResult
  readRes : Except (List Char) Unit
  decodeRes : Except (List Char) (Option ShubAPIResponse)

/-- Body-reading and decoding tail of `getManifest` (lines 170-181).  After
`json.Unmarshal` the source logs `cp.manifest.Image`, which dereferences a
nil manifest pointer when decoding failed to set it. -/
def manifestDecodePhase (cp : ShubConveyorPacker) (env : ManifestEnv) :
    StageResult ShubConveyorPacker :=
  match env.readRes with
  | .error e => .err e
  | .ok _ =>
    match env.decodeRes with
    | .error e =>
      match cp.manifest with
      | none => .panic
      | some _ => .err e
    | .ok none => .panic
    | .ok (some m) => .ok { cp with manifest := some m }

/-- `func (cp *ShubConveyorPacker) getManifest() (err error)`.  The first
component is the address requested (`none` when no request was made). -/
def getManifest (cp : ShubConveyorPacker) (env : ManifestEnv) :
    Option (List Char) × StageResult ShubConveyorPacker :=
  if cp.srcURI.defaultReg = false then (none, .ok cp)
  else
    let httpAddr := ("www.").toList ++ cp.srcURI.String
    match env.http with
    | .netErr e => (some httpAddr, .err e)
    | .resp code reason _ =>
      if code ≠ 200 then (some httpAddr, .err (statusText code reason))
      else (some httpAddr, manifestDecodePhase cp env)

/-- `io.Copy` outcome: the whole body was copied, or copying stopped with an
error after `k` bytes. -/
inductive CopyOutcome : Type where
  | full : CopyOutcome
  | stopped : Nat → List Char → CopyOutcome
deriving DecidableEq

/-- Oracle inputs of `fetchImage`: the `ioutil.TempFile` outcome (file name
inside the bundle directory), the `http.Get` outcome, and the copy outcome. -/
structure HttpGetResp where
  contentLength : Int
  body : List Nat
deriving DecidableEq

structure FetchEnv where
  tmpfileRes : Except (List Char) (List Char)
  getRes : Except (List Char) HttpGetResp
  copyRes : CopyOutcome

/-- The `fmt.Errorf` message of the size check. -/
def sizeMismatchMsg (want got : Int) : List Char :=
  ("Image received is not the right size. Supposed to be: ").toList ++
    (toString want).toList ++ ("  Actually: ").toList ++ (toString got).toList

/-- `func (cp *ShubConveyorPacker) fetchImage() (err error)`.

Order follows the source: `ioutil.TempFile(cp.b.Path, ...)` (dereferencing
the bundle pointer first, and `tmpfile.Name()` is logged before the error
check, so a failed creation panics on the nil handle), then
`http.Get(cp.manifest.Image)` (dereferencing the manifest pointer), then the
copy and the size comparison against `resp.ContentLength`. -/
def fetchImage (cp : ShubConveyorPacker) (env : FetchEnv) (fs : Fs) :
    StageResult ShubConveyorPacker × Fs :=
  match cp.b with
  | none => (.panic, fs)
  | some bb =>
    match env.tmpfileRes with
    | .error _ => (.panic, fs)
    | .ok fname =>
      let path : FsPath := bb.Path ++ [fname]
      let fs1 : Fs := (path, ([] : List Nat)) :: fs
      match cp.manifest with
      | none => (.panic, fs1)
      | some _ =>
        match env.getRes with
        | .error e => (.err e, fs1)
        | .ok resp =>
          let written := match env.copyRes with
            | .full => resp.body
            | .stopped k _ => resp.body.take k
          let fs2 : Fs := (path, written) :: fs1
          match env.copyRes with
          | .stopped _ e => (.err e, fs2)
          | .full =>
            if (written.length : Int) ≠ resp.contentLength then
              (.err (sizeMismatchMsg resp.contentLength written.length), fs2)
            else (.ok { cp with tmpfile := path }, fs2)

/-- `func (cp *ShubConveyorPacker) CleanUp()`: `os.RemoveAll(cp.b.Path)`.
Returns `none` (nil-pointer panic) when the bundle pointer is nil. -/
def CleanUp (cp : ShubConveyorPacker) (fs : Fs) : Option Fs :=
  match cp.b with
  | none => none
  | some bb => some (osRemoveAll bb.Path fs)

/-- Oracle inputs of `Get`: `sytypes.NewBundle` (modelled from the spec:
the workspace provider allocates a fresh writable directory), the manifest
and fetch oracles, and the `getLocalPacker` outcome. -/
structure GetEnv where
  newBundle : Except (List Char) Bundle
  manifestEnv : ManifestEnv
  fetchEnv : FetchEnv
  localPackerRes : Except (List Char) Unit

/-- Outcome of `Get`: success, a returned error, a `sylog.Fatalf` process
exit, or a panic. -/
inductive GetOutcome : Type where
  | ok : ShubConveyorPacker → GetOutcome
  | err : List Char → GetOutcome
  | fatal : GetOutcome
  | panic : GetOutcome
deriving DecidableEq

/-- `func (cp *ShubConveyorPacker) Get(recipe sytypes.Definition) (err error)`.
`hdrFrom` is `recipe.Header["from"]`.  Parse and stage errors after bundle
creation go through `sylog.Fatalf` (process exit); `NewBundle` and
`getLocalPacker` errors are returned to the caller. -/
def Get (hdrFrom : List Char) (env : GetEnv) (fs : Fs) : GetOutcome × Fs :=
  let src := '/' :: '/' :: hdrFrom
  match ShubParseReference src with
  | .err _ => (.fatal, fs)
  | .panic => (.panic, fs)
  | .ok uri =>
    match env.newBundle with
    | .error e => (.err e, fs)
    | .ok bb =>
      let cp : ShubConveyorPacker :=
        { srcURI := uri, tmpfile := [], manifest := none, b := some bb,
          localPacker := false }
      match (getManifest cp env.manifestEnv).2 with
      | .panic => (.panic, fs)
      | .err _ => (.fatal, fs)
      | .ok cp1 =>
        match fetchImage cp1 env.fetchEnv fs with
        | (.panic, fs') => (.panic, fs')
        | (.err _, fs') => (.fatal, fs')
        | (.ok cp2, fs') =>
          match env.localPackerRes with
          | .error e => (.err e, fs')
          | .ok _ => (.ok { cp2 with localPacker := true }, fs')

/-- C4: with a non-default registry, `getManifest` makes no request, returns
a nil error, and leaves the state (including the unset manifest) unchanged. -/
theorem getManifest_custom_registry (cp : ShubConveyorPacker) (env : ManifestEnv)
    (h : cp.srcURI.defaultReg = false) :
    getManifest cp env = (none, .ok cp) := by
  simp [getManifest, h]

theorem getManifest_custom_registry_witness :
    getManifest cpZero { http := .netErr [], readRes := .ok (), decodeRes := .error [] } =
      (none, .ok cpZero) :=
  getManifest_custom_registry cpZero
    { http := .netErr [], readRes := .ok (), decodeRes := .error [] } rfl

/-- A default-registry packer state and a 201 response, used to test the
status check. -/
def cp201 : ShubConveyorPacker :=
  { cpZero with srcURI := { uriZero with defaultReg := true } }

def env201 : ManifestEnv :=
  { http := .resp 201 ("Created").toList [], readRes := .ok (), decodeRes := .error [] }

/-- C5 counterexample: a 201 response is a 2xx success status, yet
`getManifest` returns a `RegistryStatusError` for it, because the source
compares against `http.StatusOK` (200) rather than the 2xx class. -/
theorem getManifest_2xx_errors :
    (getManifest cp201 env201).2 = .err (statusText 201 ("Created").toList) ∧
      200 ≤ 201 ∧ 201 < 300 := by
  exact ⟨rfl, by omega, by omega⟩

/-- C5 amended: for an actual HTTP response, `getManifest` returns the
status text as a `RegistryStatusError` exactly when the code is not 200
(other 2xx codes included); a 404 yields a message containing `404`; a 200
response proceeds to manifest decoding. -/
theorem getManifest_status_behaviour (cp : ShubConveyorPacker) (env : ManifestEnv)
    (code : Nat) (reason : List Char) (body : List Nat)
    (h1 : cp.srcURI.defaultReg = true) (h2 : env.http = .resp code reason body) :
    (getManifest cp env).2 =
      (if code = 200 then manifestDecodePhase cp env
       else .err (statusText code reason)) ∧
    (code = 404 →
      ∃ e u v, (getManifest cp env).2 = .err e ∧ e = u ++ ("404").toList ++ v) := by
  have hstep : (getManifest cp env).2 =
      (if code = 200 then manifestDecodePhase cp env
       else .err (statusText code reason)) := by
    simp only [getManifest, h1, h2, Bool.true_eq_false, if_false]
    by_cases hc : code = 200
    · simp [hc]
    · simp [hc]
  refine ⟨hstep, ?_⟩
  intro h404
  subst h404
  refine ⟨statusText 404 reason, [], ' ' :: reason, ?_, ?_⟩
  · rw [hstep]
    rw [if_neg (by omega)]
  · rfl

def env404 : ManifestEnv :=
  { http := .resp 404 ("Not Found").toList [], readRes := .ok (), decodeRes := .error [] }

theorem getManifest_status_behaviour_witness :
    ((getManifest cp201 env404).2 =
      (if 404 = 200 then manifestDecodePhase cp201 env404
       else .err (statusText 404 ("Not Found").toList)) ∧
     (404 = 404 →
      ∃ e u v, (getManifest cp201 env404).2 = .err e ∧ e = u ++ ("404").toList ++ v)) :=
  getManifest_status_behaviour cp201 env404 404 ("Not Found").toList [] rfl rfl

/-- C3 counterexample: `CleanUp` on an orchestrator whose `Get` was never
called dereferences the nil bundle pointer instead of being a safe no-op. -/
theorem cleanUp_nil_bundle_crashes : CleanUp cpZero [] = none := rfl

theorem filter_idem {α : Type} (f : α → Bool) (l : List α) :
    (l.filter f).filter f = l.filter f := by
  induction l with
  | nil => rfl
  | cons a l ih =>
    cases h : f a with
    | true => simp [List.filter_cons, h, ih]
    | false => simp [List.filter_cons, h, ih]

/-- C3 amended: once `Get` has allocated the bundle, `CleanUp` never fails
and is idempotent: it removes the workspace subtree, and a second call after
the directory is gone is a no-op with no error. -/
theorem cleanUp_idempotent (cp : ShubConveyorPacker) (bb : Bundle) (fs : Fs)
    (h : cp.b = some bb) :
    ∃ fs', CleanUp cp fs = some fs' ∧ CleanUp cp fs' = some fs' := by
  refine ⟨osRemoveAll bb.Path fs, ?_, ?_⟩
  · simp [CleanUp, h]
  · simp [CleanUp, h, osRemoveAll, filter_idem]

theorem cleanUp_idempotent_witness :
    ∃ fs', CleanUp { cpZero with b := some ⟨[("tmp").toList]⟩ }
        [([("tmp").toList, ("f").toList], [1])] = some fs' ∧
      CleanUp { cpZero with b := some ⟨[("tmp").toList]⟩ } fs' = some fs' :=
  cleanUp_idempotent { cpZero with b := some ⟨[("tmp").toList]⟩ } ⟨[("tmp").toList]⟩
    [([("tmp").toList, ("f").toList], [1])] rfl

/-- C6: on the full-copy path, `fetchImage` returns the size-mismatch error
exactly when the bytes written differ from the declared content length,
leaving the written file in place and the result path unrecorded; on a match
it succeeds, records the temp file path, and the file content is the body
whose length equals the declared length. -/
theorem fetchImage_size_check (cp : ShubConveyorPacker) (env : FetchEnv) (fs : Fs)
    (bb : Bundle) (m : ShubAPIResponse) (fname : List Char) (resp : HttpGetResp)
    (hb : cp.b = some bb) (hm : cp.manifest = some m)
    (ht : env.tmpfileRes = .ok fname) (hg : env.getRes = .ok resp)
    (hc : env.copyRes = .full) :
    (((resp.body.length : Int) ≠ resp.contentLength →
        (fetchImage cp env fs).1 =
          .err (sizeMismatchMsg resp.contentLength resp.body.length) ∧
        lookupFile (fetchImage cp env fs).2 (bb.Path ++ [fname]) = some resp.body) ∧
     ((resp.body.length : Int) = resp.contentLength →
        (fetchImage cp env fs).1 = .ok { cp with tmpfile := bb.Path ++ [fname] } ∧
        lookupFile (fetchImage cp env fs).2 (bb.Path ++ [fname]) = some resp.body)) := by
  have hpair : fetchImage cp env fs =
      (if (resp.body.length : Int) ≠ resp.contentLength then
        (.err (sizeMismatchMsg resp.contentLength resp.body.length),
          (bb.Path ++ [fname], resp.body) :: (bb.Path ++ [fname], []) :: fs)
       else
        (.ok { cp with tmpfile := bb.Path ++ [fname] },
          (bb.Path ++ [fname], resp.body) :: (bb.Path ++ [fname], []) :: fs)) := by
    simp only [fetchImage, hb, ht, hm, hg, hc]
  constructor
  · intro hne
    rw [hpair, if_pos hne]
    exact ⟨rfl, by simp [lookupFile]⟩
  · intro heq
    rw [hpair, if_neg (by exact fun h => h heq)]
    exact ⟨rfl, by simp [lookupFile]⟩

def cp6 : ShubConveyorPacker :=
  { cpZero with b := some ⟨[("ws").toList]⟩, manifest := some ⟨[], [], [], []⟩ }

def env6 : FetchEnv :=
  { tmpfileRes := .ok ("f").toList, getRes := .ok ⟨2, [7, 7]⟩, copyRes := .full }

theorem fetchImage_size_check_witness :
    ((((([7, 7] : List Nat).length : Int) ≠ (2 : Int) →
        (fetchImage cp6 env6 []).1 =
          .err (sizeMismatchMsg 2 ([7, 7] : List Nat).length) ∧
        lookupFile (fetchImage cp6 env6 []).2 ([("ws").toList] ++ [("f").toList]) =
          some [7, 7]) ∧
      ((([7, 7] : List Nat).length : Int) = (2 : Int) →
        (fetchImage cp6 env6 []).1 = .ok { cp6 with tmpfile := [("ws").toList] ++ [("f").toList] } ∧
        lookupFile (fetchImage cp6 env6 []).2 ([("ws").toList] ++ [("f").toList]) =
          some [7, 7]))) :=
  fetchImage_size_check cp6 env6 [] ⟨[("ws").toList]⟩ ⟨[], [], [], []⟩ ("f").toList
    ⟨2, [7, 7]⟩ rfl rfl rfl rfl rfl

/-- C10: a parsed custom-registry reference leaves the manifest pointer nil
through the silently succeeding manifest stage, and the fetch stage panics
dereferencing it; `Get` can never return success for such a reference. -/
theorem get_custom_registry_panics (hdrFrom : List Char) (u : ShubURI)
    (env : GetEnv) (fs : Fs) (bb : Bundle)
    (h1 : ShubParseReference ('/' :: '/' :: hdrFrom) = .ok u)
    (h2 : u.defaultReg = false)
    (h3 : env.newBundle = .ok bb) :
    (Get hdrFrom env fs).1 = .panic ∧
      ∀ (env' : GetEnv) (fs' : Fs) (cp : ShubConveyorPacker),
        (Get hdrFrom env' fs').1 ≠ .ok cp := by
  have hman : ∀ (me : ManifestEnv) (bb' : Bundle),
      (getManifest { srcURI := u, tmpfile := [], manifest := none, b := some bb', localPacker := false } me).2 =
        .ok { srcURI := u, tmpfile := [], manifest := none, b := some bb', localPacker := false } := by
    intro me bb'
    simp [getManifest, h2]
  have hfetch : ∀ (fe : FetchEnv) (fs0 : Fs) (bb' : Bundle),
      ∃ fs2, fetchImage { srcURI := u, tmpfile := [], manifest := none, b := some bb', localPacker := false } fe fs0 = (.panic, fs2) := by
    intro fe fs0 bb'
    cases hfe : fe.tmpfileRes with
    | error e => exact ⟨fs0, by simp [fetchImage, hfe]⟩
    | ok fname => exact ⟨(bb'.Path ++ [fname], []) :: fs0, by simp [fetchImage, hfe]⟩
  constructor
  · obtain ⟨fs2, hpair⟩ := hfetch env.fetchEnv fs bb
    simp only [Get, h1, h3, hman, hpair]
  · intro env' fs' cp
    cases hnb : env'.newBundle with
    | error e =>
      simp only [Get, h1, hnb]
      intro h
      exact GetOutcome.noConfusion h
    | ok bb' =>
      obtain ⟨fs2, hpair⟩ := hfetch env'.fetchEnv fs' bb'
      simp only [Get, h1, hnb, hman, hpair]
      intro h
      exact GetOutcome.noConfusion h

theorem shub_parse_roundtrip_witness :
    ∃ u, ShubParseReference ("//owner/container").toList = .ok u ∧
      u.String = (if u.defaultReg then
        defaultRegistry ++ (("//owner/container").toList).drop 2
       else (("//owner/container").toList).drop 2) :=
  shub_parse_roundtrip ("//owner/container").toList (by decide)

theorem shub_parse_custom_example_witness :
    ShubParseReference (("//host/path/owner/container:mytag@").toList ++
        ("0123456789abcdef0123456789abcdef").toList) =
      .ok { registry := ("host/path/").toList, user := ("owner/").toList,
            container := ("container").toList, tag := (":mytag").toList,
            digest := '@' :: ("0123456789abcdef0123456789abcdef").toList,
            defaultReg := false } :=
  shub_parse_custom_example ("0123456789abcdef0123456789abcdef").toList
    (by decide) (by decide)

/-- The locator produced for `//owner/container`. -/
def uEx : ShubURI :=
  { registry := defaultRegistry, user := ("owner/").toList,
    container := ("container").toList, tag := [], digest := [], defaultReg := true }

theorem shub_parse_invariant_witness :
    uEx.container ≠ [] ∧ (uEx.tag = [] ∨ ∃ t, uEx.tag = ':' :: t) ∧
      (uEx.digest = [] ∨ ∃ d, uEx.digest = '@' :: d) :=
  shub_parse_invariant ("//owner/container").toList uEx (by decide)

theorem shub_accepted_single_delims_witness :
    ((("//owner/container:tag").toList).drop 2).count '@' ≤ 1 ∧
      ((("//owner/container:tag").toList).drop 2).count ':' ≤ 1 :=
  shub_accepted_single_delims ("//owner/container:tag").toList (by decide)

def env10 : GetEnv :=
  { newBundle := .ok ⟨[("ws").toList]⟩,
    manifestEnv := { http := .netErr [], readRes := .ok (), decodeRes := .error [] },
    fetchEnv := { tmpfileRes := .ok ("f").toList, getRes := .error [], copyRes := .full },
    localPackerRes := .ok () }

def u10 : ShubURI :=
  { registry := ("host/path/").toList, user := ("owner/").toList,
    container := ("container").toList, tag := [], digest := [], defaultReg := false }

theorem get_custom_registry_panics_witness :
    (Get (("host/path/owner/container").toList) env10 []).1 = .panic ∧
      ∀ (env' : GetEnv) (fs' : Fs) (cp : ShubConveyorPacker),
        (Get (("host/path/owner/container").toList) env' fs').1 ≠ .ok cp :=
  get_custom_registry_panics (("host/path/owner/container").toList) u10 env10 []
    ⟨[("ws").toList]⟩ (by decide) rfl rfl
